import Mathlib

/-!
Verification of the react-native-liveline per-frame chart engine.

This file gives a shallow embedding, over the real numbers, of the numeric
core of the engine (src/unnamed/part_005 and src/src/draw) and proves the
spec claims about it.  JavaScript double arithmetic is modelled by real
arithmetic; Math.pow on a non-negative base is Real.rpow, Math.exp, Math.log,
Math.cos, Math.sqrt are the corresponding real functions.  Packed Float64
point buffers are modelled either as index functions (time and value at
index i) or as lists of pairs.
-/

namespace Liveline

noncomputable section

/-- The clamp helper of the engine (part_005, line 234):
clamp n min max = Math.min(max, Math.max(min, n)). -/
def clamp (n mn mx : ℝ) : ℝ := min mx (max mn n)

/-- Frame-rate-independent exponential interpolation primitive
(alphaLerp, part_005 lines 239-248):
alpha = 1 - (1-speed)^dtR, clamped to [0,1];
result = from + (to - from) * alpha. -/
def alphaLerp (f t speed dtR : ℝ) : ℝ :=
  f + (t - f) * clamp (1 - (1 - speed) ^ dtR) 0 1

/-- Gap ratio of the value convergence controller (part_005 line 1326-1327):
clamp(|targetValue - curDisplay| / currentRange, 0, 1). -/
def gapRatioOf (targetValue curDisplay currentRange : ℝ) : ℝ :=
  clamp (|targetValue - curDisplay| / currentRange) 0 1

/-- Adaptive interpolation speed (part_005 line 1328):
clamp(lerpSpeed + (1 - gapRatio) * 0.2, 0.001, 0.8). -/
def adaptiveSpeedOf (lerpSpeed g : ℝ) : ℝ :=
  clamp (lerpSpeed + (1 - g) * 0.2) 0.001 0.8

lemma clamp_le (n mn mx : ℝ) : clamp n mn mx ≤ mx := min_le_left _ _

lemma le_clamp (n mn mx : ℝ) (h : mn ≤ mx) : mn ≤ clamp n mn mx :=
  le_min h (le_max_left _ _)

lemma clamp_eq_self (n mn mx : ℝ) (h1 : mn ≤ n) (h2 : n ≤ mx) :
    clamp n mn mx = n := by
  unfold clamp
  rw [max_eq_right h1, min_eq_right h2]

lemma clamp_mono (a b mn mx : ℝ) (h : a ≤ b) : clamp a mn mx ≤ clamp b mn mx := by
  unfold clamp
  exact min_le_min le_rfl (max_le_max le_rfl h)

/-- On a non-negative base, rpow turns addition of exponents into a product;
this is the version that also covers base zero. -/
lemma rpow_add_nonneg (p r1 r2 : ℝ) (hp : 0 ≤ p) (h1 : 0 ≤ r1) (h2 : 0 ≤ r2) :
    p ^ (r1 + r2) = p ^ r1 * p ^ r2 := by
  rcases lt_or_eq_of_le hp with hp' | hp'
  · exact Real.rpow_add hp' r1 r2
  · subst hp'
    rcases eq_or_lt_of_le h1 with h1' | h1'
    · subst h1'
      simp
    · rw [Real.zero_rpow (by positivity : r1 + r2 ≠ 0),
        Real.zero_rpow (ne_of_gt h1')]
      ring

/-- For speeds in [0,1] and non-negative frame ratios, the blend factor of
alphaLerp already lies in [0,1], so the clamp is the identity and
alphaLerp has the closed form target - (target - current) * (1-speed)^dtR. -/
lemma alphaLerp_closed_form (f t speed dtR : ℝ)
    (hs0 : 0 ≤ speed) (hs1 : speed ≤ 1) (hr : 0 ≤ dtR) :
    alphaLerp f t speed dtR = t - (t - f) * (1 - speed) ^ dtR := by
  unfold alphaLerp
  have hb0 : (0:ℝ) ≤ 1 - speed := by linarith
  have hb1 : (1:ℝ) - speed ≤ 1 := by linarith
  have hp0 : 0 ≤ (1 - speed) ^ dtR := Real.rpow_nonneg hb0 dtR
  have hp1 : (1 - speed) ^ dtR ≤ 1 := Real.rpow_le_one hb0 hb1 hr
  rw [clamp_eq_self _ _ _ (by linarith) (by linarith)]
  ring

lemma alphaLerp_two_step (c t speed r1 r2 : ℝ)
    (hs0 : 0 ≤ speed) (hs1 : speed ≤ 1) (h1 : 0 ≤ r1) (h2 : 0 ≤ r2) :
    alphaLerp (alphaLerp c t speed r1) t speed r2 = alphaLerp c t speed (r1 + r2) := by
  rw [alphaLerp_closed_form _ _ _ _ hs0 hs1 h1,
    alphaLerp_closed_form _ _ _ _ hs0 hs1 h2,
    alphaLerp_closed_form _ _ _ _ hs0 hs1 (by linarith),
    rpow_add_nonneg _ _ _ (by linarith) h1 h2]
  ring

/-- C3: advancing the exponential interpolation primitive toward a fixed
target with ratio r1 and then r2 lands exactly where a single step with
ratio r1 + r2 lands (so the difference is below every tolerance), and more
generally any sequence of non-negative ratios is equivalent to one step with
their sum: N small ticks summing to duration D land exactly where one tick
of duration D lands. -/
theorem alphaLerp_step_additive (c t speed r1 r2 : ℝ)
    (hs0 : 0 ≤ speed) (hs1 : speed ≤ 1) (h1 : 0 ≤ r1) (h2 : 0 ≤ r2) :
    alphaLerp (alphaLerp c t speed r1) t speed r2 = alphaLerp c t speed (r1 + r2) ∧
    ∀ rs : List ℝ, (∀ r ∈ rs, 0 ≤ r) →
      rs.foldl (fun a r => alphaLerp a t speed r) c = alphaLerp c t speed rs.sum := by
  constructor
  · exact alphaLerp_two_step c t speed r1 r2 hs0 hs1 h1 h2
  · intro rs
    induction rs generalizing c with
    | nil =>
      intro _
      simp [alphaLerp_closed_form c t speed 0 hs0 hs1 le_rfl, Real.rpow_zero]
    | cons r rest ih =>
      intro hmem
      have hr : 0 ≤ r := hmem r (List.mem_cons_self r rest)
      have hrest : ∀ x ∈ rest, 0 ≤ x := fun x hx => hmem x (List.mem_cons_of_mem r hx)
      have hsum : 0 ≤ rest.sum := List.sum_nonneg hrest
      rw [List.foldl_cons, ih (alphaLerp c t speed r) hrest,
        alphaLerp_two_step c t speed r rest.sum hs0 hs1 hr hsum, List.sum_cons]

/-- C3 witness: two steps of ratio 1 from 0 toward 8 with speed 1/2 equal one
step of ratio 2, and the fold over ratios [1, 1] equals one step with ratio 2. -/
theorem alphaLerp_step_additive_witness :
    alphaLerp (alphaLerp 0 8 (1/2) 1) 8 (1/2) 1 = alphaLerp 0 8 (1/2) (1 + 1) ∧
    ∀ rs : List ℝ, (∀ r ∈ rs, 0 ≤ r) →
      rs.foldl (fun a r => alphaLerp a 8 (1/2) r) 0 = alphaLerp 0 8 (1/2) rs.sum :=
  alphaLerp_step_additive 0 8 (1/2) 1 1 (by norm_num) (by norm_num) (by norm_num)
    (by norm_num)

/-- C10: one step of alphaLerp never leaves the closed interval between the
current value and the target (the blend factor is clamped to [0,1]), and a
step with dtRatio = 0 and speed in [0,1] returns the current value exactly. -/
theorem alphaLerp_no_overshoot_step (f t speed dtR : ℝ) (hr : 0 ≤ dtR) :
    (min f t ≤ alphaLerp f t speed dtR ∧ alphaLerp f t speed dtR ≤ max f t) ∧
    (0 ≤ speed → speed ≤ 1 → alphaLerp f t speed 0 = f) := by
  constructor
  · have h0 : (0:ℝ) ≤ clamp (1 - (1 - speed) ^ dtR) 0 1 := le_clamp _ _ _ (by norm_num)
    have h1 : clamp (1 - (1 - speed) ^ dtR) 0 1 ≤ 1 := clamp_le _ _ _
    unfold alphaLerp
    set a := clamp (1 - (1 - speed) ^ dtR) 0 1 with ha
    rcases le_total f t with hft | hft
    · rw [min_eq_left hft, max_eq_right hft]
      constructor
      · nlinarith
      · nlinarith
    · rw [min_eq_right hft, max_eq_left hft]
      constructor
      · nlinarith
      · nlinarith
  · intro hs0 hs1
    rw [alphaLerp_closed_form f t speed 0 hs0 hs1 le_rfl, Real.rpow_zero]
    ring

/-- C10 witness: with current 1, target 5, speed 1/4, ratio 2 the step stays
within [1,5], and with ratio 0 it returns 1 exactly. -/
theorem alphaLerp_no_overshoot_step_witness :
    (min (1:ℝ) 5 ≤ alphaLerp 1 5 (1/4) 2 ∧ alphaLerp 1 5 (1/4) 2 ≤ max 1 5) ∧
    (0 ≤ (1/4:ℝ) → (1/4:ℝ) ≤ 1 → alphaLerp 1 5 (1/4) 0 = 1) :=
  alphaLerp_no_overshoot_step 1 5 (1/4) 2 (by norm_num)

/-- C2 counterexample: the claim says the effective speed is monotonically
non-decreasing in the gap ratio.  At base speed 0.08 the state with gap
ratio 0 (target 5 = display 5, range 1) gets speed 0.28 while the state
with gap ratio 1 (target 6, display 5, range 1) gets speed 0.08, so the
speed at the larger gap ratio is strictly smaller, refuting the claim. -/
theorem adaptiveSpeed_not_monotone_counterexample :
    gapRatioOf 5 5 1 ≤ gapRatioOf 6 5 1 ∧
    ¬ (adaptiveSpeedOf 0.08 (gapRatioOf 5 5 1) ≤ adaptiveSpeedOf 0.08 (gapRatioOf 6 5 1)) := by
  have h0 : gapRatioOf 5 5 1 = 0 := by
    unfold gapRatioOf clamp
    norm_num
  have h1 : gapRatioOf 6 5 1 = 1 := by
    unfold gapRatioOf clamp
    norm_num
  rw [h0, h1]
  unfold adaptiveSpeedOf clamp
  norm_num

/-- C2 amended: the effective per-tick interpolation speed is monotonically
non-increasing in the gap ratio |targetValue - currentDisplay| / currentRange:
for two states with the same configured base speed and gap ratios g1 ≤ g2,
the speed applied at g2 is at most the speed applied at g1 (small gaps get a
boost of up to +0.2 over the base speed; the result is clamped to
[0.001, 0.8]). -/
theorem adaptiveSpeed_antitone_in_gap (lerpSpeed t1 d1 rng1 t2 d2 rng2 : ℝ)
    (h : gapRatioOf t1 d1 rng1 ≤ gapRatioOf t2 d2 rng2) :
    adaptiveSpeedOf lerpSpeed (gapRatioOf t2 d2 rng2) ≤
      adaptiveSpeedOf lerpSpeed (gapRatioOf t1 d1 rng1) := by
  unfold adaptiveSpeedOf
  apply clamp_mono
  nlinarith

/-- C2 amended witness: at base speed 0.08, the state with gap ratio 1 gets
a speed no larger than the state with gap ratio 0. -/
theorem adaptiveSpeed_antitone_in_gap_witness :
    adaptiveSpeedOf 0.08 (gapRatioOf 6 5 1) ≤ adaptiveSpeedOf 0.08 (gapRatioOf 5 5 1) := by
  apply adaptiveSpeed_antitone_in_gap
  have h0 : gapRatioOf 5 5 1 = 0 := by
    unfold gapRatioOf clamp
    norm_num
  have h1 : gapRatioOf 6 5 1 = 1 := by
    unfold gapRatioOf clamp
    norm_num
  rw [h0, h1]
  norm_num

/-- Result record of computeRangeFromVisible (part_005 lines 347-350). -/
structure RangeResult where
  min : ℝ
  max : ℝ

/-- Running minimum of the visible-value loop of computeRangeFromVisible. -/
def listMin (v : ℝ) (l : List ℝ) : ℝ := l.foldl min v

/-- Running maximum of the visible-value loop of computeRangeFromVisible. -/
def listMax (v : ℝ) (l : List ℝ) : ℝ := l.foldl max v

lemma listMin_le (v : ℝ) (l : List ℝ) : listMin v l ≤ v := by
  induction l generalizing v with
  | nil => exact le_rfl
  | cons a l ih =>
    calc listMin (min v a) l ≤ min v a := ih (min v a)
    _ ≤ v := min_le_left _ _

lemma listMin_le_of_mem (v x : ℝ) (l : List ℝ) (hx : x ∈ l) : listMin v l ≤ x := by
  induction l generalizing v with
  | nil => cases hx
  | cons a l ih =>
    rcases List.mem_cons.mp hx with h | h
    · subst h
      calc listMin (min v x) l ≤ min v x := listMin_le _ _
      _ ≤ x := min_le_right _ _
    · exact ih (min v a) h

lemma le_listMin (w v : ℝ) (l : List ℝ) (hv : w ≤ v) (hl : ∀ x ∈ l, w ≤ x) :
    w ≤ listMin v l := by
  induction l generalizing v with
  | nil => exact hv
  | cons a l ih =>
    exact ih (min v a) (le_min hv (hl a (List.mem_cons_self a l)))
      (fun x hx => hl x (List.mem_cons_of_mem a hx))

lemma le_listMax (v : ℝ) (l : List ℝ) : v ≤ listMax v l := by
  induction l generalizing v with
  | nil => exact le_rfl
  | cons a l ih =>
    calc v ≤ max v a := le_max_left _ _
    _ ≤ listMax (max v a) l := ih (max v a)

lemma mem_le_listMax (v x : ℝ) (l : List ℝ) (hx : x ∈ l) : x ≤ listMax v l := by
  induction l generalizing v with
  | nil => cases hx
  | cons a l ih =>
    rcases List.mem_cons.mp hx with h | h
    · subst h
      calc x ≤ max v x := le_max_right _ _
      _ ≤ listMax (max v x) l := le_listMax _ _
    · exact ih (max v a) h

lemma listMax_le (w v : ℝ) (l : List ℝ) (hv : v ≤ w) (hl : ∀ x ∈ l, x ≤ w) :
    listMax v l ≤ w := by
  induction l generalizing v with
  | nil => exact hv
  | cons a l ih =>
    exact ih (max v a) (max_le hv (hl a (List.mem_cons_self a l)))
      (fun x hx => hl x (List.mem_cons_of_mem a hx))

/-- The raw data bounds computed by computeRangeFromVisible (part_005 lines
363-384) before margins and the minimum-range floor: minimum and maximum over
the visible values (falling back to currentValue ∓ 0.5 when no visible value
exists), then widened to include currentValue and, when finite, the reference
value.  The argument vis is the list of buffer values at the visible indices
firstVisibleIndex .. min(lastVisibleIndex, count-1); a nonfinite reference
value is modelled as none. -/
def rawBoundsOf (vis : List ℝ) (currentValue : ℝ) (referenceValue : Option ℝ) :
    ℝ × ℝ :=
  let mm : ℝ × ℝ :=
    match vis with
    | [] => (currentValue - 0.5, currentValue + 0.5)
    | v :: rest => (listMin v rest, listMax v rest)
  let mn1 := if currentValue < mm.1 then currentValue else mm.1
  let mx1 := if mm.2 < currentValue then currentValue else mm.2
  match referenceValue with
  | some rv => (if rv < mn1 then rv else mn1, if mx1 < rv then rv else mx1)
  | none => (mn1, mx1)

/-- computeRangeFromVisible (part_005 lines 352-405): raw bounds from the
visible data, margin factor and minimum-range floor depending on the
exaggerate flag, then either recentering at the floor span (when the raw
range is below the floor) or widening by the margin. -/
def computeRangeFromVisible (vis : List ℝ) (currentValue : ℝ)
    (referenceValue : Option ℝ) (exaggerate : Bool) : RangeResult :=
  let rb := rawBoundsOf vis currentValue referenceValue
  let rawRange := rb.2 - rb.1
  let marginFactor : ℝ := if exaggerate then 0.01 else 0.12
  let minRange : ℝ :=
    max (rawRange * (if exaggerate then 0.02 else 0.1))
      (if exaggerate then 0.04 else 0.4)
  if rawRange < minRange then
    let mid := (rb.1 + rb.2) / 2
    ⟨mid - minRange / 2, mid + minRange / 2⟩
  else
    ⟨rb.1 - rawRange * marginFactor, rb.2 + rawRange * marginFactor⟩

lemma if_lt_eq_min (a b : ℝ) : (if a < b then a else b) = min a b := by
  rcases le_or_lt b a with h | h
  · rw [if_neg (not_lt.mpr h), min_eq_right h]
  · rw [if_pos h, min_eq_left (le_of_lt h)]

lemma if_lt_eq_max (a b : ℝ) : (if b < a then a else b) = max a b := by
  rcases le_or_lt a b with h | h
  · rw [if_neg (not_lt.mpr h), max_eq_right h]
  · rw [if_pos h, max_eq_left (le_of_lt h)]

lemma rawBoundsOf_cons_none (v : ℝ) (rest : List ℝ) (cv : ℝ) :
    rawBoundsOf (v :: rest) cv none =
      (min cv (listMin v rest), max cv (listMax v rest)) := by
  simp only [rawBoundsOf, if_lt_eq_min, if_lt_eq_max]

lemma rawBoundsOf_cons_some (v : ℝ) (rest : List ℝ) (cv rv : ℝ) :
    rawBoundsOf (v :: rest) cv (some rv) =
      (min rv (min cv (listMin v rest)), max rv (max cv (listMax v rest))) := by
  simp only [rawBoundsOf, if_lt_eq_min, if_lt_eq_max]

lemma rawBoundsOf_nil_none (cv : ℝ) :
    rawBoundsOf [] cv none = (min cv (cv - 0.5), max cv (cv + 0.5)) := by
  simp only [rawBoundsOf, if_lt_eq_min, if_lt_eq_max]

lemma rawBoundsOf_nil_some (cv rv : ℝ) :
    rawBoundsOf [] cv (some rv) =
      (min rv (min cv (cv - 0.5)), max rv (max cv (cv + 0.5))) := by
  simp only [rawBoundsOf, if_lt_eq_min, if_lt_eq_max]

lemma rawBoundsOf_le (vis : List ℝ) (currentValue : ℝ) (referenceValue : Option ℝ) :
    (∀ v ∈ vis, (rawBoundsOf vis currentValue referenceValue).1 ≤ v ∧
      v ≤ (rawBoundsOf vis currentValue referenceValue).2) ∧
    (rawBoundsOf vis currentValue referenceValue).1 ≤ currentValue ∧
    currentValue ≤ (rawBoundsOf vis currentValue referenceValue).2 := by
  cases vis with
  | nil =>
    cases referenceValue with
    | none =>
      rw [rawBoundsOf_nil_none]
      exact ⟨by simp, min_le_left _ _, le_max_left _ _⟩
    | some rv =>
      rw [rawBoundsOf_nil_some]
      exact ⟨by simp, le_trans (min_le_right _ _) (min_le_left _ _),
        le_trans (le_max_left _ _) (le_max_right _ _)⟩
  | cons v rest =>
    have hmn : ∀ x ∈ v :: rest, listMin v rest ≤ x := by
      intro x hx
      rcases List.mem_cons.mp hx with h | h
      · subst h
        exact listMin_le _ _
      · exact listMin_le_of_mem _ _ _ h
    have hmx : ∀ x ∈ v :: rest, x ≤ listMax v rest := by
      intro x hx
      rcases List.mem_cons.mp hx with h | h
      · subst h
        exact le_listMax _ _
      · exact mem_le_listMax _ _ _ h
    cases referenceValue with
    | none =>
      rw [rawBoundsOf_cons_none]
      refine ⟨fun x hx => ⟨?_, ?_⟩, min_le_left _ _, le_max_left _ _⟩
      · exact le_trans (min_le_right _ _) (hmn x hx)
      · exact le_trans (hmx x hx) (le_max_right _ _)
    | some rv =>
      rw [rawBoundsOf_cons_some]
      refine ⟨fun x hx => ⟨?_, ?_⟩,
        le_trans (min_le_right _ _) (min_le_left _ _),
        le_trans (le_max_left _ _) (le_max_right _ _)⟩
      · exact le_trans (min_le_right _ _) (le_trans (min_le_right _ _) (hmn x hx))
      · exact le_trans (le_trans (hmx x hx) (le_max_right _ _)) (le_max_right _ _)

/-- Flat visible data with no reference line collapses the raw bounds to the
shared value. -/
lemma rawBoundsOf_flat (vis : List ℝ) (cv : ℝ) (hvis : vis ≠ [])
    (hflat : ∀ v ∈ vis, v = cv) :
    rawBoundsOf vis cv none = (cv, cv) := by
  cases vis with
  | nil => exact absurd rfl hvis
  | cons v rest =>
    have hv : v = cv := hflat v (List.mem_cons_self v rest)
    have hrest : ∀ x ∈ rest, cv ≤ x := fun x hx =>
      le_of_eq (hflat x (List.mem_cons_of_mem v hx)).symm
    have hrest2 : ∀ x ∈ rest, x ≤ cv := fun x hx =>
      le_of_eq (hflat x (List.mem_cons_of_mem v hx))
    have hminv : listMin v rest = cv := by
      rw [hv]
      exact le_antisymm (listMin_le _ _) (le_listMin _ _ _ le_rfl hrest)
    have hmaxv : listMax v rest = cv := by
      rw [hv]
      exact le_antisymm (listMax_le _ _ _ le_rfl hrest2) (le_listMax _ _)
    rw [rawBoundsOf_cons_none, hminv, hmaxv, min_self, max_self]

/-- C7: for a nonempty visible-value list in normal (non-exaggerate) mode the
computed target range contains every visible value and the current displayed
value, and its span is at least the larger of rawRange * 0.1 and the fixed
0.4 floor; in particular, for flat data (all visible values equal to the
displayed value, no reference line) the target is exactly that value ∓ 0.2. -/
theorem computeRangeFromVisible_contains_and_floor (vis : List ℝ)
    (currentValue : ℝ) (referenceValue : Option ℝ) (hvis : vis ≠ []) :
    (∀ v ∈ vis, (computeRangeFromVisible vis currentValue referenceValue false).min ≤ v ∧
      v ≤ (computeRangeFromVisible vis currentValue referenceValue false).max) ∧
    (computeRangeFromVisible vis currentValue referenceValue false).min ≤ currentValue ∧
    currentValue ≤ (computeRangeFromVisible vis currentValue referenceValue false).max ∧
    0.4 ≤ (computeRangeFromVisible vis currentValue referenceValue false).max -
      (computeRangeFromVisible vis currentValue referenceValue false).min ∧
    ((rawBoundsOf vis currentValue referenceValue).2 -
        (rawBoundsOf vis currentValue referenceValue).1) * 0.1 ≤
      (computeRangeFromVisible vis currentValue referenceValue false).max -
        (computeRangeFromVisible vis currentValue referenceValue false).min ∧
    ((∀ v ∈ vis, v = currentValue) → referenceValue = none →
      (computeRangeFromVisible vis currentValue referenceValue false).min =
        currentValue - 0.2 ∧
      (computeRangeFromVisible vis currentValue referenceValue false).max =
        currentValue + 0.2) := by
  obtain ⟨hcont, hcur1, hcur2⟩ := rawBoundsOf_le vis currentValue referenceValue
  set rb := rawBoundsOf vis currentValue referenceValue with hrb
  have hle : rb.1 ≤ rb.2 := le_trans hcur1 hcur2
  have hout : computeRangeFromVisible vis currentValue referenceValue false =
      if rb.2 - rb.1 < max ((rb.2 - rb.1) * 0.1) 0.4 then
        ⟨(rb.1 + rb.2) / 2 - max ((rb.2 - rb.1) * 0.1) 0.4 / 2,
          (rb.1 + rb.2) / 2 + max ((rb.2 - rb.1) * 0.1) 0.4 / 2⟩
      else ⟨rb.1 - (rb.2 - rb.1) * 0.12, rb.2 + (rb.2 - rb.1) * 0.12⟩ := by
    simp only [computeRangeFromVisible, ← hrb]
    norm_num
  have hfloor : (0.4 : ℝ) ≤ max ((rb.2 - rb.1) * 0.1) 0.4 := le_max_right _ _
  have hfloor2 : (rb.2 - rb.1) * 0.1 ≤ max ((rb.2 - rb.1) * 0.1) 0.4 := le_max_left _ _
  rw [hout]
  split_ifs with hcase
  · -- recenter at the floor span
    refine ⟨?_, ?_, ?_, ?_, ?_, ?_⟩
    · intro v hv
      obtain ⟨h1, h2⟩ := hcont v hv
      constructor
      · simp only []
        linarith
      · simp only []
        linarith
    · simp only []
      linarith
    · simp only []
      linarith
    · simp only []
      linarith
    · simp only []
      linarith
    · intro hflat hrefnone
      have hmm : rb = (currentValue, currentValue) := by
        rw [hrb, hrefnone]
        exact rawBoundsOf_flat vis currentValue hvis hflat
      rw [hmm]
      norm_num
  · -- widen by the margin; here rawRange is at least the floor
    have hge : max ((rb.2 - rb.1) * 0.1) 0.4 ≤ rb.2 - rb.1 := le_of_not_lt hcase
    refine ⟨?_, ?_, ?_, ?_, ?_, ?_⟩
    · intro v hv
      obtain ⟨h1, h2⟩ := hcont v hv
      constructor
      · simp only []
        nlinarith
      · simp only []
        nlinarith
    · simp only []
      nlinarith
    · simp only []
      nlinarith
    · simp only []
      nlinarith [le_trans hfloor hge]
    · simp only []
      nlinarith [le_trans hfloor2 hge]
    · intro hflat hrefnone
      exfalso
      have hmm : rb = (currentValue, currentValue) := by
        rw [hrb, hrefnone]
        exact rawBoundsOf_flat vis currentValue hvis hflat
      rw [hmm] at hge
      have h04 : (0.4:ℝ) ≤ 0 := by
        refine le_trans (le_max_right (((currentValue, currentValue).2 -
          (currentValue, currentValue).1) * 0.1) 0.4) (le_trans hge ?_)
        norm_num
      norm_num at h04

/-- C7 witness: visible values [1, 2] with displayed value 3/2 and no
reference line satisfy all the conjuncts. -/
theorem computeRangeFromVisible_contains_and_floor_witness :
    (∀ v ∈ [(1:ℝ), 2], (computeRangeFromVisible [1, 2] (3/2) none false).min ≤ v ∧
      v ≤ (computeRangeFromVisible [1, 2] (3/2) none false).max) ∧
    (computeRangeFromVisible [1, 2] (3/2) none false).min ≤ 3/2 ∧
    (3/2:ℝ) ≤ (computeRangeFromVisible [1, 2] (3/2) none false).max ∧
    0.4 ≤ (computeRangeFromVisible [1, 2] (3/2) none false).max -
      (computeRangeFromVisible [1, 2] (3/2) none false).min ∧
    ((rawBoundsOf [1, 2] (3/2) none).2 - (rawBoundsOf [1, 2] (3/2) none).1) * 0.1 ≤
      (computeRangeFromVisible [1, 2] (3/2) none false).max -
        (computeRangeFromVisible [1, 2] (3/2) none false).min ∧
    ((∀ v ∈ [(1:ℝ), 2], v = 3/2) → (none : Option ℝ) = none →
      (computeRangeFromVisible [1, 2] (3/2) none false).min = 3/2 - 0.2 ∧
      (computeRangeFromVisible [1, 2] (3/2) none false).max = 3/2 + 0.2) :=
  computeRangeFromVisible_contains_and_floor [1, 2] (3/2) none (by simp)

/-- Half-pixel snap threshold for the range lerp (part_005 lines 1381-1388):
pxThreshold = innerHeight > 0 ? 0.5 * currentRange / innerHeight : 0.001,
replaced by the 0.001 fallback unless it is finite and positive. -/
def rangeThresholdOf (innerHeight currentRange : ℝ) : ℝ :=
  let px := if 0 < innerHeight then 0.5 * currentRange / innerHeight else 0.001
  if 0 < px then px else 0.001

/-- Advance of the minimum range bound after initialization (part_005 lines
1371-1375 and 1389-1391): snap outward when the target minimum expands below
the current minimum by more than half the current range, otherwise lerp by
alpha; afterwards a lerped bound within the half-pixel threshold of the
target snaps exactly to the target. -/
def nextRangeMinOf (curMin targetMin currentRange alphaV threshold : ℝ) : ℝ :=
  let lerped :=
    if targetMin < curMin ∧ currentRange * 0.5 < curMin - targetMin then targetMin
    else curMin + (targetMin - curMin) * alphaV
  if |lerped - targetMin| < threshold then targetMin else lerped

/-- Advance of the maximum range bound after initialization (part_005 lines
1376-1379 and 1392-1394), symmetric to nextRangeMinOf. -/
def nextRangeMaxOf (curMax targetMax currentRange alphaV threshold : ℝ) : ℝ :=
  let lerped :=
    if curMax < targetMax ∧ currentRange * 0.5 < targetMax - curMax then targetMax
    else curMax + (targetMax - curMax) * alphaV
  if |lerped - targetMax| < threshold then targetMax else lerped

/-- C6 counterexample: the claim says that outside the beyond-half-span
expansion case the bound moves by the exponential interpolation law.  With
current min 0, target min -0.001 (a small expansion, not beyond half of the
current range 1), alpha 0.1 and the half-pixel threshold for a 100px plot,
the lerp law gives -0.0001, but the code returns the target -0.001 exactly
(the lerped value lies within the threshold and snaps), refuting the claim. -/
theorem rangeLerp_pixel_snap_counterexample :
    ¬ ((-0.001:ℝ) < 0 ∧ (1:ℝ) * 0.5 < 0 - (-0.001)) ∧
    (0:ℝ) + ((-0.001) - 0) * 0.1 = -0.0001 ∧
    nextRangeMinOf 0 (-0.001) 1 0.1 (rangeThresholdOf 100 1) = -0.001 ∧
    (-0.001:ℝ) ≠ -0.0001 := by
  have hth : rangeThresholdOf 100 1 = 0.005 := by
    unfold rangeThresholdOf
    norm_num
  refine ⟨by norm_num, by norm_num, ?_, by norm_num⟩
  rw [hth]
  unfold nextRangeMinOf
  have hcond : ¬ ((-0.001:ℝ) < 0 ∧ (1:ℝ) * 0.5 < 0 - (-0.001)) := by norm_num
  rw [if_neg hcond]
  have habs : |(0:ℝ) + ((-0.001) - 0) * 0.1 - (-0.001)| = 0.0009 := by
    rw [abs_of_pos]
    · norm_num
    · norm_num
  show (if |(0:ℝ) + ((-0.001) - 0) * 0.1 - (-0.001)| < 0.005 then (-0.001:ℝ)
    else 0 + ((-0.001) - 0) * 0.1) = -0.001
  rw [habs]
  norm_num

/-- C6 amended: after initialization each range bound obeys: if the fresh
target bound expands past the current bound by more than half the current
span, the next bound equals the target exactly on that tick; otherwise the
bound moves toward the target by the exponential interpolation law, except
that a lerped bound within the half-pixel threshold of the target snaps
exactly to the target. -/
theorem nextRangeBound_snap_lerp_characterization
    (curMin targetMin curMax targetMax currentRange alphaV threshold : ℝ)
    (hth : 0 < threshold) :
    ((targetMin < curMin ∧ currentRange * 0.5 < curMin - targetMin) →
      nextRangeMinOf curMin targetMin currentRange alphaV threshold = targetMin) ∧
    (¬ (targetMin < curMin ∧ currentRange * 0.5 < curMin - targetMin) →
      (|curMin + (targetMin - curMin) * alphaV - targetMin| < threshold →
        nextRangeMinOf curMin targetMin currentRange alphaV threshold = targetMin) ∧
      (¬ |curMin + (targetMin - curMin) * alphaV - targetMin| < threshold →
        nextRangeMinOf curMin targetMin currentRange alphaV threshold =
          curMin + (targetMin - curMin) * alphaV)) ∧
    ((curMax < targetMax ∧ currentRange * 0.5 < targetMax - curMax) →
      nextRangeMaxOf curMax targetMax currentRange alphaV threshold = targetMax) ∧
    (¬ (curMax < targetMax ∧ currentRange * 0.5 < targetMax - curMax) →
      (|curMax + (targetMax - curMax) * alphaV - targetMax| < threshold →
        nextRangeMaxOf curMax targetMax currentRange alphaV threshold = targetMax) ∧
      (¬ |curMax + (targetMax - curMax) * alphaV - targetMax| < threshold →
        nextRangeMaxOf curMax targetMax currentRange alphaV threshold =
          curMax + (targetMax - curMax) * alphaV)) := by
  refine ⟨?_, ?_, ?_, ?_⟩
  · intro hsnap
    unfold nextRangeMinOf
    rw [if_pos hsnap]
    rw [if_pos (by simpa using hth)]
  · intro hsnap
    constructor
    · intro hnear
      unfold nextRangeMinOf
      rw [if_neg hsnap, if_pos hnear]
    · intro hfar
      unfold nextRangeMinOf
      rw [if_neg hsnap, if_neg hfar]
  · intro hsnap
    unfold nextRangeMaxOf
    rw [if_pos hsnap]
    rw [if_pos (by simpa using hth)]
  · intro hsnap
    constructor
    · intro hnear
      unfold nextRangeMaxOf
      rw [if_neg hsnap, if_pos hnear]
    · intro hfar
      unfold nextRangeMaxOf
      rw [if_neg hsnap, if_neg hfar]

/-- C6 amended witness: concrete instantiation with a positive threshold;
conjunct one fires at a beyond-half-span expansion of the minimum bound. -/
theorem nextRangeBound_snap_lerp_characterization_witness :
    (((-10:ℝ) < 0 ∧ (1:ℝ) * 0.5 < 0 - (-10)) →
      nextRangeMinOf 0 (-10) 1 0.1 0.005 = -10) ∧
    (¬ ((-10:ℝ) < 0 ∧ (1:ℝ) * 0.5 < 0 - (-10)) →
      (|(0:ℝ) + ((-10) - 0) * 0.1 - (-10)| < 0.005 →
        nextRangeMinOf 0 (-10) 1 0.1 0.005 = -10) ∧
      (¬ |(0:ℝ) + ((-10) - 0) * 0.1 - (-10)| < 0.005 →
        nextRangeMinOf 0 (-10) 1 0.1 0.005 = 0 + ((-10) - 0) * 0.1)) ∧
    (((1:ℝ) < 20 ∧ (1:ℝ) * 0.5 < 20 - 1) →
      nextRangeMaxOf 1 20 1 0.1 0.005 = 20) ∧
    (¬ ((1:ℝ) < 20 ∧ (1:ℝ) * 0.5 < 20 - 1) →
      (|(1:ℝ) + (20 - 1) * 0.1 - 20| < 0.005 →
        nextRangeMaxOf 1 20 1 0.1 0.005 = 20) ∧
      (¬ |(1:ℝ) + (20 - 1) * 0.1 - 20| < 0.005 →
        nextRangeMaxOf 1 20 1 0.1 0.005 = 1 + (20 - 1) * 0.1)) :=
  nextRangeBound_snap_lerp_characterization 0 (-10) 1 20 1 0.1 0.005 (by norm_num)

/-- Cosine-eased progress of the candle width morph (part_005 lines
1891-1893): t = min(elapsed / CANDLE_WIDTH_TRANS_MS, 1) with
CANDLE_WIDTH_TRANS_MS = 300, then morphT = (1 - cos(t * pi)) / 2. -/
def morphEase (elapsed : ℝ) : ℝ :=
  (1 - Real.cos (min (elapsed / 300) 1 * Real.pi)) / 2

/-- Displayed candle width during the width morph (part_005 lines
1894-1899): log-space interpolation
exp(log(from) + (log(to) - log(from)) * morphT). -/
def displayCandleWidthOf (wf wt mt : ℝ) : ℝ :=
  Real.exp (Real.log wf + (Real.log wt - Real.log wf) * mt)

/-- Displayed candle range bound during the width morph (part_005 lines
2040-2047): linear interpolation oldBound + (newBound - oldBound) * morphT. -/
def morphRangeBound (oldB newB mt : ℝ) : ℝ := oldB + (newB - oldB) * mt

/-- Modelled from the spec for comparison: the claimed log-space
interpolation of a displayed range bound,
exp(log(oldBound) + (log(newBound) - log(oldBound)) * morphProgress). -/
def logSpaceRangeBound (oldB newB mt : ℝ) : ℝ :=
  Real.exp (Real.log oldB + (Real.log newB - Real.log oldB) * mt)

/-- C9 counterexample: halfway through the morph (elapsed 150ms of 300ms,
morph progress 1/2) with old bound 1 and new bound 4, the code displays the
linearly interpolated bound 5/2, while the claimed log-space formula gives
2; the two disagree, refuting the claim that range endpoints are
interpolated in log space. -/
theorem widthMorph_range_not_log_counterexample :
    morphEase 150 = 1/2 ∧
    morphRangeBound 1 4 (morphEase 150) = 5/2 ∧
    logSpaceRangeBound 1 4 (morphEase 150) = 2 ∧
    (5/2 : ℝ) ≠ 2 := by
  have hmin : min ((150:ℝ) / 300) 1 = 1/2 := by norm_num
  have hease : morphEase 150 = 1/2 := by
    unfold morphEase
    rw [hmin, show (1/2 : ℝ) * Real.pi = Real.pi / 2 by ring, Real.cos_pi_div_two]
    norm_num
  refine ⟨hease, ?_, ?_, by norm_num⟩
  · rw [hease]
    unfold morphRangeBound
    norm_num
  · rw [hease]
    unfold logSpaceRangeBound
    rw [Real.log_one]
    have h4 : Real.log 4 = 2 * Real.log 2 := by
      rw [show (4:ℝ) = 2 ^ (2:ℕ) by norm_num, Real.log_pow]
      push_cast
      ring
    rw [h4, show (0:ℝ) + (2 * Real.log 2 - 0) * (1/2) = Real.log 2 by ring,
      Real.exp_log two_pos]

/-- C9 amended: during a candle-width-change morph the displayed Y-range
endpoints are interpolated linearly (not in log space) between the
old-width range endpoints and the new-width range endpoints, with the
morph progress cosine-eased over the fixed 300ms cross-fade (progress 0 at
start, 1 from 300ms on, always within [0,1], so the displayed bound stays
between the old and new bounds and moves from old to new); the log-space
interpolation applies to the displayed candle width, which equals
from^(1-t) * to^t. -/
theorem widthMorph_linear_range_log_width (oldB newB wf wt e mt : ℝ)
    (hwf : 0 < wf) (hwt : 0 < wt) :
    morphEase 0 = 0 ∧
    (300 ≤ e → morphEase e = 1) ∧
    (0 ≤ morphEase e ∧ morphEase e ≤ 1) ∧
    (min oldB newB ≤ morphRangeBound oldB newB (morphEase e) ∧
      morphRangeBound oldB newB (morphEase e) ≤ max oldB newB) ∧
    morphRangeBound oldB newB 0 = oldB ∧
    morphRangeBound oldB newB 1 = newB ∧
    displayCandleWidthOf wf wt mt = wf ^ (1 - mt) * wt ^ mt := by
  have hbounds : ∀ x : ℝ, 0 ≤ morphEase x ∧ morphEase x ≤ 1 := by
    intro x
    unfold morphEase
    constructor
    · nlinarith [Real.cos_le_one (min (x / 300) 1 * Real.pi)]
    · nlinarith [Real.neg_one_le_cos (min (x / 300) 1 * Real.pi)]
  refine ⟨?_, ?_, hbounds e, ?_, by unfold morphRangeBound; ring,
    by unfold morphRangeBound; ring, ?_⟩
  · unfold morphEase
    rw [show min ((0:ℝ) / 300) 1 = 0 by norm_num, zero_mul, Real.cos_zero]
    norm_num
  · intro he
    unfold morphEase
    rw [min_eq_right ((one_le_div (by norm_num : (0:ℝ) < 300)).mpr he),
      one_mul, Real.cos_pi]
    norm_num
  · obtain ⟨h0, h1⟩ := hbounds e
    unfold morphRangeBound
    rcases le_total oldB newB with h | h
    · rw [min_eq_left h, max_eq_right h]
      constructor
      · nlinarith
      · nlinarith
    · rw [min_eq_right h, max_eq_left h]
      constructor
      · nlinarith
      · nlinarith
  · unfold displayCandleWidthOf
    rw [Real.rpow_def_of_pos hwf, Real.rpow_def_of_pos hwt, ← Real.exp_add,
      Real.exp_eq_exp]
    ring

/-- C9 amended witness: old bound 1, new bound 4, widths 2 and 8,
elapsed 150ms, morph progress 1/2. -/
theorem widthMorph_linear_range_log_width_witness :
    morphEase 0 = 0 ∧
    ((300:ℝ) ≤ 150 → morphEase 150 = 1) ∧
    (0 ≤ morphEase 150 ∧ morphEase 150 ≤ 1) ∧
    (min (1:ℝ) 4 ≤ morphRangeBound 1 4 (morphEase 150) ∧
      morphRangeBound 1 4 (morphEase 150) ≤ max (1:ℝ) 4) ∧
    morphRangeBound 1 4 0 = 1 ∧
    morphRangeBound 1 4 1 = 4 ∧
    displayCandleWidthOf 2 8 (1/2) = 2 ^ (1 - (1/2:ℝ)) * 8 ^ (1/2:ℝ) :=
  widthMorph_linear_range_log_width 1 4 2 8 150 (1/2) (by norm_num) (by norm_num)

/-- A JavaScript number as seen by the ingestion filter: either a finite
value (modelled as a real) or one of the nonfinite values NaN, Infinity,
-Infinity. -/
inductive JSNum
  | fin (x : ℝ)
  | nan
  | posInf
  | negInf

/-- Number.isFinite on a JSNum. -/
def JSNum.isFinite : JSNum → Bool
  | .fin _ => true
  | _ => false

/-- The filter pass of packPoints (part_005 lines 436-442): keep only the
samples whose time and value are both finite. -/
def cleanPoints (data : List (JSNum × JSNum)) : List (ℝ × ℝ) :=
  data.filterMap fun p =>
    match p with
    | (.fin t, .fin v) => some (t, v)
    | _ => none

/-- The sort pass of packPoints (part_005 line 444): sort ascending by
time, clean.sort((a, b) => a.t - b.t). -/
def sortPoints (l : List (ℝ × ℝ)) : List (ℝ × ℝ) :=
  l.mergeSort fun a b => decide (a.1 ≤ b.1)

/-- packPoints (part_005 lines 435-455): filter out nonfinite samples, sort
by time, and keep only the newest 1200 samples; the packed buffer holds the
resulting (time, value) pairs in order and its count is the list length. -/
def packPoints (data : List (JSNum × JSNum)) : List (ℝ × ℝ) :=
  let sorted := sortPoints (cleanPoints data)
  if 1200 < sorted.length then sorted.drop (sorted.length - 1200) else sorted

lemma sortPoints_sorted (l : List (ℝ × ℝ)) :
    List.Pairwise (fun p q : ℝ × ℝ => p.1 ≤ q.1) (sortPoints l) := by
  have h := @List.sorted_mergeSort (ℝ × ℝ) (fun a b => decide (a.1 ≤ b.1))
    (fun a b c hab hbc => by
      simp only [decide_eq_true_eq] at *
      exact le_trans hab hbc)
    (fun a b => by
      simp only [Bool.or_eq_true, decide_eq_true_eq]
      exact le_total a.1 b.1) l
  exact h.imp (by simp only [decide_eq_true_eq, imp_self, implies_true])

lemma sortPoints_perm (l : List (ℝ × ℝ)) : (sortPoints l).Perm l :=
  List.mergeSort_perm l _

lemma packPoints_eq (data : List (JSNum × JSNum)) :
    packPoints data =
      if 1200 < (sortPoints (cleanPoints data)).length then
        (sortPoints (cleanPoints data)).drop
          ((sortPoints (cleanPoints data)).length - 1200)
      else sortPoints (cleanPoints data) := rfl

/-- C8: ingestion returns, for every input sample list (including samples
with NaN or infinite time/value), a packed list whose times are sorted in
non-decreasing order, of length at most 1200, that is a suffix of the
sorted filtered list (the newest samples after sorting), every retained
pair coming from a finite input sample; if no sample has both time and
value finite the result is empty (count 0, the empty render state), and
being a total function it never throws. -/
theorem packPoints_spec (data : List (JSNum × JSNum)) :
    List.Pairwise (fun p q : ℝ × ℝ => p.1 ≤ q.1) (packPoints data) ∧
    (packPoints data).length ≤ 1200 ∧
    (packPoints data) <:+ sortPoints (cleanPoints data) ∧
    (∀ p ∈ packPoints data, (JSNum.fin p.1, JSNum.fin p.2) ∈ data) ∧
    ((∀ q ∈ data, q.1.isFinite = false ∨ q.2.isFinite = false) →
      packPoints data = []) := by
  have hsorted := sortPoints_sorted (cleanPoints data)
  have hsuffix : (packPoints data) <:+ sortPoints (cleanPoints data) := by
    rw [packPoints_eq]
    split_ifs with h
    · exact List.drop_suffix _ _
    · exact List.suffix_refl _
  refine ⟨?_, ?_, hsuffix, ?_, ?_⟩
  · exact hsorted.sublist hsuffix.sublist
  · rw [packPoints_eq]
    split_ifs with h
    · rw [List.length_drop]
      omega
    · omega
  · intro p hp
    have hmem : p ∈ sortPoints (cleanPoints data) := hsuffix.subset hp
    have hclean : p ∈ cleanPoints data := (sortPoints_perm _).subset hmem
    unfold cleanPoints at hclean
    rw [List.mem_filterMap] at hclean
    obtain ⟨a, ha, hfa⟩ := hclean
    obtain ⟨u, w⟩ := a
    cases u with
    | fin x =>
      cases w with
      | fin y =>
        simp only [Option.some.injEq] at hfa
        rw [← hfa]
        exact ha
      | nan => simp at hfa
      | posInf => simp at hfa
      | negInf => simp at hfa
    | nan => simp at hfa
    | posInf => simp at hfa
    | negInf => simp at hfa
  · intro hall
    have hclean : cleanPoints data = [] := by
      unfold cleanPoints
      rw [List.filterMap_eq_nil_iff]
      intro a ha
      obtain ⟨u, w⟩ := a
      cases u with
      | fin x =>
        cases w with
        | fin y =>
          exfalso
          rcases hall (JSNum.fin x, JSNum.fin y) ha with h | h <;>
            simp [JSNum.isFinite] at h
        | nan => rfl
        | posInf => rfl
        | negInf => rfl
      | nan => rfl
      | posInf => rfl
      | negInf => rfl
    have hsortnil : sortPoints (cleanPoints data) = [] := by
      rw [hclean]
      exact (sortPoints_perm []).eq_nil
    rw [packPoints_eq, hsortnil]
    simp

/-- C8 witness: a single sample with NaN time is filtered out, giving the
empty packed buffer (count 0) within the 1200 cap. -/
theorem packPoints_spec_witness :
    packPoints [(JSNum.nan, JSNum.fin 1)] = [] ∧
    (packPoints [(JSNum.nan, JSNum.fin 1)]).length ≤ 1200 := by
  have h := packPoints_spec [(JSNum.nan, JSNum.fin 1)]
  refine ⟨h.2.2.2.2 ?_, h.2.1⟩
  intro q hq
  have hq2 : q = (JSNum.nan, JSNum.fin 1) := by
    simpa using hq
  rw [hq2]
  left
  rfl

/-- Binary search of interpolateAtTime (crosshair.ts lines 222-229): narrow
[lo, hi] until hi - lo is at most 1, keeping tb lo ≤ t < tb hi. -/
def bsearch (tb : ℕ → ℝ) (t : ℝ) (lo hi : ℕ) : ℕ × ℕ :=
  if h : 1 < hi - lo then
    let mid := (lo + hi) / 2
    if tb mid ≤ t then bsearch tb t mid hi else bsearch tb t lo mid
  else (lo, hi)
termination_by hi - lo
decreasing_by
  · omega
  · omega

lemma bsearch_step_left (tb : ℕ → ℝ) (t : ℝ) (lo hi : ℕ) (h : 1 < hi - lo)
    (hc : tb ((lo + hi) / 2) ≤ t) :
    bsearch tb t lo hi = bsearch tb t ((lo + hi) / 2) hi := by
  rw [bsearch]
  simp only [dif_pos h, if_pos hc]

lemma bsearch_step_right (tb : ℕ → ℝ) (t : ℝ) (lo hi : ℕ) (h : 1 < hi - lo)
    (hc : ¬ tb ((lo + hi) / 2) ≤ t) :
    bsearch tb t lo hi = bsearch tb t lo ((lo + hi) / 2) := by
  rw [bsearch]
  simp only [dif_pos h, if_neg hc]

lemma bsearch_base (tb : ℕ → ℝ) (t : ℝ) (lo hi : ℕ) (h : ¬ 1 < hi - lo) :
    bsearch tb t lo hi = (lo, hi) := by
  rw [bsearch]
  simp only [dif_neg h]

lemma bsearch_spec_aux (tb : ℕ → ℝ) (t : ℝ) :
    ∀ n lo hi : ℕ, hi - lo ≤ n → lo < hi → tb lo ≤ t → t < tb hi →
      lo ≤ (bsearch tb t lo hi).1 ∧ (bsearch tb t lo hi).2 ≤ hi ∧
      (bsearch tb t lo hi).2 = (bsearch tb t lo hi).1 + 1 ∧
      tb (bsearch tb t lo hi).1 ≤ t ∧ t < tb (bsearch tb t lo hi).2 := by
  intro n
  induction n with
  | zero =>
    intro lo hi hle hlh _ _
    omega
  | succ n ih =>
    intro lo hi hle hlh hlo hhi
    by_cases h : 1 < hi - lo
    · by_cases hc : tb ((lo + hi) / 2) ≤ t
      · rw [bsearch_step_left tb t lo hi h hc]
        obtain ⟨i1, i2, i3, i4, i5⟩ :=
          ih ((lo + hi) / 2) hi (by omega) (by omega) hc hhi
        exact ⟨by omega, i2, i3, i4, i5⟩
      · rw [bsearch_step_right tb t lo hi h hc]
        obtain ⟨i1, i2, i3, i4, i5⟩ :=
          ih lo ((lo + hi) / 2) (by omega) (by omega) hlo (lt_of_not_le hc)
        exact ⟨i1, by omega, i3, i4, i5⟩
    · rw [bsearch_base tb t lo hi h]
      exact ⟨le_rfl, le_rfl, by omega, hlo, hhi⟩

lemma bsearch_spec (tb : ℕ → ℝ) (t : ℝ) (lo hi : ℕ) (hlh : lo < hi)
    (hlo : tb lo ≤ t) (hhi : t < tb hi) :
    lo ≤ (bsearch tb t lo hi).1 ∧ (bsearch tb t lo hi).2 ≤ hi ∧
    (bsearch tb t lo hi).2 = (bsearch tb t lo hi).1 + 1 ∧
    tb (bsearch tb t lo hi).1 ≤ t ∧ t < tb (bsearch tb t lo hi).2 :=
  bsearch_spec_aux tb t (hi - lo) lo hi le_rfl hlh hlo hhi

/-- Fritsch-Carlson tangent selection and stability clamp for one segment
(crosshair.ts lines 255-289): initial tangents from the adjacent secant
slopes (the left/right segment secant at interior knots, the segment secant
at boundary knots, zero at a local extremum), then the constraint
alpha^2 + beta^2 ≤ 9 enforced by rescaling both tangents. -/
def fcTangents (deltaL delta deltaR : ℝ) (aL aR : Bool) : ℝ × ℝ :=
  let m0 := if aL then delta else if deltaL * delta ≤ 0 then 0 else (deltaL + delta) / 2
  let m1 := if aR then delta else if delta * deltaR ≤ 0 then 0 else (delta + deltaR) / 2
  if delta = 0 then (0, 0)
  else
    let alp := m0 / delta
    let bet := m1 / delta
    let s2 := alp * alp + bet * bet
    if 9 < s2 then (3 / Real.sqrt s2 * alp * delta, 3 / Real.sqrt s2 * bet * delta)
    else (m0, m1)

/-- Both clamped tangents are non-negative multiples of the segment secant,
with factor at most 3: the heart of the non-overshoot property. -/
lemma fcTangents_bounded (deltaL delta deltaR : ℝ) (aL aR : Bool) :
    ∃ a b : ℝ, 0 ≤ a ∧ a ≤ 3 ∧ 0 ≤ b ∧ b ≤ 3 ∧
      (fcTangents deltaL delta deltaR aL aR).1 = a * delta ∧
      (fcTangents deltaL delta deltaR aL aR).2 = b * delta := by
  by_cases hd : delta = 0
  · refine ⟨0, 0, le_rfl, by norm_num, le_rfl, by norm_num, ?_, ?_⟩ <;>
      simp [fcTangents, hd]
  · have hfc : fcTangents deltaL delta deltaR aL aR =
        (let m0 := if aL then delta else if deltaL * delta ≤ 0 then 0
            else (deltaL + delta) / 2
        let m1 := if aR then delta else if delta * deltaR ≤ 0 then 0
            else (delta + deltaR) / 2
        let alp := m0 / delta
        let bet := m1 / delta
        let s2 := alp * alp + bet * bet
        if 9 < s2 then (3 / Real.sqrt s2 * alp * delta, 3 / Real.sqrt s2 * bet * delta)
        else (m0, m1)) := by
      simp only [fcTangents, if_neg hd]
    rw [hfc]
    set m0 := if aL then delta else if deltaL * delta ≤ 0 then 0
      else (deltaL + delta) / 2 with hm0
    set m1 := if aR then delta else if delta * deltaR ≤ 0 then 0
      else (delta + deltaR) / 2 with hm1
    have hsign : ∀ dAdj m : ℝ, (m = if aL then delta else if dAdj * delta ≤ 0 then 0
        else (dAdj + delta) / 2) → 0 ≤ m / delta → True := fun _ _ _ _ => trivial
    have halp : 0 ≤ m0 / delta := by
      rw [hm0]
      split_ifs with h1 h2
      · rw [div_self hd]
        norm_num
      · simp
      · have hprod : 0 < deltaL * delta := lt_of_not_le h2
        rcases lt_or_gt_of_ne hd with hneg | hpos
        · have hL : deltaL < 0 := by nlinarith
          exact div_nonneg_iff.mpr (Or.inr ⟨by linarith, le_of_lt hneg⟩)
        · have hL : 0 < deltaL := by nlinarith
          exact div_nonneg (by linarith) (le_of_lt hpos)
    have hbet : 0 ≤ m1 / delta := by
      rw [hm1]
      split_ifs with h1 h2
      · rw [div_self hd]
        norm_num
      · simp
      · have hprod : 0 < delta * deltaR := lt_of_not_le h2
        rcases lt_or_gt_of_ne hd with hneg | hpos
        · have hR : deltaR < 0 := by nlinarith
          exact div_nonneg_iff.mpr (Or.inr ⟨by linarith, le_of_lt hneg⟩)
        · have hR : 0 < deltaR := by nlinarith
          exact div_nonneg (by linarith) (le_of_lt hpos)
    set alp := m0 / delta with halpdef
    set bet := m1 / delta with hbetdef
    by_cases hs : 9 < alp * alp + bet * bet
    · have hs2pos : 0 < alp * alp + bet * bet := by nlinarith
      have hsq : 0 < Real.sqrt (alp * alp + bet * bet) := Real.sqrt_pos.mpr hs2pos
      have hsqle : ∀ x : ℝ, 0 ≤ x → x * x ≤ alp * alp + bet * bet →
          x ≤ Real.sqrt (alp * alp + bet * bet) := by
        intro x hx hxx
        rw [show x = Real.sqrt (x ^ 2) from (Real.sqrt_sq hx).symm]
        apply Real.sqrt_le_sqrt
        nlinarith
      refine ⟨3 / Real.sqrt (alp * alp + bet * bet) * alp,
        3 / Real.sqrt (alp * alp + bet * bet) * bet, ?_, ?_, ?_, ?_, ?_, ?_⟩
      · exact mul_nonneg (div_nonneg (by norm_num) (le_of_lt hsq)) halp
      · rw [div_mul_eq_mul_div, div_le_iff hsq]
        have := hsqle alp halp (by nlinarith)
        nlinarith
      · exact mul_nonneg (div_nonneg (by norm_num) (le_of_lt hsq)) hbet
      · rw [div_mul_eq_mul_div, div_le_iff hsq]
        have := hsqle bet hbet (by nlinarith)
        nlinarith
      · rw [if_pos hs]
      · rw [if_pos hs]
    · refine ⟨alp, bet, halp, ?_, hbet, ?_, ?_, ?_⟩
      · nlinarith
      · nlinarith
      · rw [if_neg hs, halpdef, div_mul_cancel₀ m0 hd]
      · rw [if_neg hs, hbetdef, div_mul_cancel₀ m1 hd]

/-- Hermite cubic evaluation over one segment plus the neighbor-secant
tangent computation of interpolateAtTime (crosshair.ts lines 231-300). -/
def hermiteSegment (tb vb : ℕ → ℝ) (count lo hi : ℕ) (t : ℝ) : ℝ :=
  let t0 := tb lo
  let v0 := vb lo
  let t1 := tb hi
  let v1 := vb hi
  let seg := t1 - t0
  if seg ≤ 0 then v0
  else
    let delta := (v1 - v0) / seg
    let deltaL :=
      if 0 < lo ∧ 0 < t0 - tb (lo - 1) then (v0 - vb (lo - 1)) / (t0 - tb (lo - 1))
      else delta
    let deltaR :=
      if hi < count - 1 ∧ 0 < tb (hi + 1) - t1 then (vb (hi + 1) - v1) / (tb (hi + 1) - t1)
      else delta
    let mm := fcTangents deltaL delta deltaR (decide (lo = 0)) (decide (hi = count - 1))
    let u := (t - t0) / seg
    (2 * (u * u * u) - 3 * (u * u) + 1) * v0 +
      ((u * u * u) - 2 * (u * u) + u) * seg * mm.1 +
      (-2 * (u * u * u) + 3 * (u * u)) * v1 +
      ((u * u * u) - (u * u)) * seg * mm.2

/-- The blending polynomial of the clamped Hermite cubic is non-negative on
[0,1] whenever the tangent factors satisfy 0 ≤ a and b ≤ 3. -/
lemma hermiteG_nonneg (a b u : ℝ) (ha0 : 0 ≤ a) (hb3 : b ≤ 3)
    (hu0 : 0 ≤ u) (hu1 : u ≤ 1) :
    0 ≤ 3 * u ^ 2 - 2 * u ^ 3 + a * (u * (1 - u) ^ 2) - b * (u ^ 2 * (1 - u)) := by
  have h3b : (0:ℝ) ≤ 3 - b := by linarith
  have h1u : (0:ℝ) ≤ 1 - u := by linarith
  have e : 3 * u ^ 2 - 2 * u ^ 3 + a * (u * (1 - u) ^ 2) - b * (u ^ 2 * (1 - u)) =
      u ^ 3 + u * (1 - u) * ((3 - b) * u + a * (1 - u)) := by ring
  rw [e]
  have h1 := mul_nonneg (mul_nonneg hu0 h1u)
    (add_nonneg (mul_nonneg h3b hu0) (mul_nonneg ha0 h1u))
  have h2 : 0 ≤ u ^ 3 := pow_nonneg hu0 3
  linarith

/-- The blending polynomial is at most 1 on [0,1] whenever a ≤ 3 and
0 ≤ b, by the symmetry u ↦ 1-u. -/
lemma hermiteG_le_one (a b u : ℝ) (ha3 : a ≤ 3) (hb0 : 0 ≤ b)
    (hu0 : 0 ≤ u) (hu1 : u ≤ 1) :
    3 * u ^ 2 - 2 * u ^ 3 + a * (u * (1 - u) ^ 2) - b * (u ^ 2 * (1 - u)) ≤ 1 := by
  have h := hermiteG_nonneg b a (1 - u) hb0 ha3 (by linarith) (by linarith)
  nlinarith [h]

/-- The Hermite cubic with tangents that are [0,3]-multiples of the secant
stays within the closed interval of its endpoint values. -/
lemma hermite_eval_between (v0 v1 seg m0 m1 u : ℝ)
    (hu0 : 0 ≤ u) (hu1 : u ≤ 1)
    (hab : ∃ a b : ℝ, 0 ≤ a ∧ a ≤ 3 ∧ 0 ≤ b ∧ b ≤ 3 ∧
      seg * m0 = a * (v1 - v0) ∧ seg * m1 = b * (v1 - v0)) :
    min v0 v1 ≤ (2 * (u * u * u) - 3 * (u * u) + 1) * v0 +
      ((u * u * u) - 2 * (u * u) + u) * seg * m0 +
      (-2 * (u * u * u) + 3 * (u * u)) * v1 +
      ((u * u * u) - (u * u)) * seg * m1 ∧
    (2 * (u * u * u) - 3 * (u * u) + 1) * v0 +
      ((u * u * u) - 2 * (u * u) + u) * seg * m0 +
      (-2 * (u * u * u) + 3 * (u * u)) * v1 +
      ((u * u * u) - (u * u)) * seg * m1 ≤ max v0 v1 := by
  obtain ⟨a, b, ha0, ha3, hb0, hb3, hab1, hab2⟩ := hab
  have hg0 := hermiteG_nonneg a b u ha0 hb3 hu0 hu1
  have hg1 := hermiteG_le_one a b u ha3 hb0 hu0 hu1
  have e : (2 * (u * u * u) - 3 * (u * u) + 1) * v0 +
      ((u * u * u) - 2 * (u * u) + u) * seg * m0 +
      (-2 * (u * u * u) + 3 * (u * u)) * v1 +
      ((u * u * u) - (u * u)) * seg * m1 =
      v0 + (v1 - v0) *
        (3 * u ^ 2 - 2 * u ^ 3 + a * (u * (1 - u) ^ 2) - b * (u ^ 2 * (1 - u))) := by
    linear_combination (u * u * u - 2 * (u * u) + u) * hab1 + (u * u * u - u * u) * hab2
  rw [e]
  set g := 3 * u ^ 2 - 2 * u ^ 3 + a * (u * (1 - u) ^ 2) - b * (u ^ 2 * (1 - u)) with hg
  rcases le_total v0 v1 with h | h
  · rw [min_eq_left h, max_eq_right h]
    constructor
    · nlinarith
    · nlinarith
  · rw [min_eq_right h, max_eq_left h]
    constructor
    · nlinarith
    · nlinarith

/-- hermiteSegment over a properly ordered segment never leaves the closed
interval of its two endpoint values. -/
lemma hermiteSegment_bound (tb vb : ℕ → ℝ) (count lo hi : ℕ) (t : ℝ)
    (hseg : 0 < tb hi - tb lo) (ht0 : tb lo ≤ t) (ht1 : t ≤ tb hi) :
    min (vb lo) (vb hi) ≤ hermiteSegment tb vb count lo hi t ∧
    hermiteSegment tb vb count lo hi t ≤ max (vb lo) (vb hi) := by
  have hne : tb hi - tb lo ≠ 0 := ne_of_gt hseg
  have hred : hermiteSegment tb vb count lo hi t =
      (2 * (((t - tb lo) / (tb hi - tb lo)) * ((t - tb lo) / (tb hi - tb lo)) *
          ((t - tb lo) / (tb hi - tb lo))) -
        3 * (((t - tb lo) / (tb hi - tb lo)) * ((t - tb lo) / (tb hi - tb lo))) + 1) * vb lo +
      ((((t - tb lo) / (tb hi - tb lo)) * ((t - tb lo) / (tb hi - tb lo)) *
          ((t - tb lo) / (tb hi - tb lo))) -
        2 * (((t - tb lo) / (tb hi - tb lo)) * ((t - tb lo) / (tb hi - tb lo))) +
        ((t - tb lo) / (tb hi - tb lo))) * (tb hi - tb lo) *
        (fcTangents
          (if 0 < lo ∧ 0 < tb lo - tb (lo - 1) then
            (vb lo - vb (lo - 1)) / (tb lo - tb (lo - 1))
          else (vb hi - vb lo) / (tb hi - tb lo))
          ((vb hi - vb lo) / (tb hi - tb lo))
          (if hi < count - 1 ∧ 0 < tb (hi + 1) - tb hi then
            (vb (hi + 1) - vb hi) / (tb (hi + 1) - tb hi)
          else (vb hi - vb lo) / (tb hi - tb lo))
          (decide (lo = 0)) (decide (hi = count - 1))).1 +
      (-2 * (((t - tb lo) / (tb hi - tb lo)) * ((t - tb lo) / (tb hi - tb lo)) *
          ((t - tb lo) / (tb hi - tb lo))) +
        3 * (((t - tb lo) / (tb hi - tb lo)) * ((t - tb lo) / (tb hi - tb lo)))) * vb hi +
      ((((t - tb lo) / (tb hi - tb lo)) * ((t - tb lo) / (tb hi - tb lo)) *
          ((t - tb lo) / (tb hi - tb lo))) -
        (((t - tb lo) / (tb hi - tb lo)) * ((t - tb lo) / (tb hi - tb lo)))) *
        (tb hi - tb lo) *
        (fcTangents
          (if 0 < lo ∧ 0 < tb lo - tb (lo - 1) then
            (vb lo - vb (lo - 1)) / (tb lo - tb (lo - 1))
          else (vb hi - vb lo) / (tb hi - tb lo))
          ((vb hi - vb lo) / (tb hi - tb lo))
          (if hi < count - 1 ∧ 0 < tb (hi + 1) - tb hi then
            (vb (hi + 1) - vb hi) / (tb (hi + 1) - tb hi)
          else (vb hi - vb lo) / (tb hi - tb lo))
          (decide (lo = 0)) (decide (hi = count - 1))).2 := by
    simp only [hermiteSegment]
    rw [if_neg (not_le.mpr hseg)]
  rw [hred]
  obtain ⟨a, b, ha0, ha3, hb0, hb3, hab1, hab2⟩ := fcTangents_bounded
    (if 0 < lo ∧ 0 < tb lo - tb (lo - 1) then
      (vb lo - vb (lo - 1)) / (tb lo - tb (lo - 1))
    else (vb hi - vb lo) / (tb hi - tb lo))
    ((vb hi - vb lo) / (tb hi - tb lo))
    (if hi < count - 1 ∧ 0 < tb (hi + 1) - tb hi then
      (vb (hi + 1) - vb hi) / (tb (hi + 1) - tb hi)
    else (vb hi - vb lo) / (tb hi - tb lo))
    (decide (lo = 0)) (decide (hi = count - 1))
  apply hermite_eval_between
  · exact div_nonneg (by linarith) (le_of_lt hseg)
  · exact (div_le_one hseg).mpr (by linarith)
  · refine ⟨a, b, ha0, ha3, hb0, hb3, ?_, ?_⟩
    · rw [hab1]
      field_simp
    · rw [hab2]
      field_simp

/-- interpolateAtTime (crosshair.ts lines 212-301): evaluate the
Fritsch-Carlson monotone cubic spline of the packed buffer at time t.
The packed buffer is modelled by its time and value index functions tb, vb
together with the sample count. -/
def interpolateAtTime (tb vb : ℕ → ℝ) (count : ℕ) (t : ℝ) : ℝ :=
  if count = 0 then 0
  else if t ≤ tb 0 then vb 0
  else if tb (count - 1) ≤ t then vb (count - 1)
  else
    hermiteSegment tb vb count (bsearch tb t 0 (count - 1)).1
      (bsearch tb t 0 (count - 1)).2 t

lemma mono_le_of (tb : ℕ → ℝ) (count : ℕ)
    (hmono : ∀ j k : ℕ, j < k → k < count → tb j < tb k)
    (j k : ℕ) (hjk : j ≤ k) (hk : k < count) : tb j ≤ tb k := by
  rcases eq_or_lt_of_le hjk with h | h
  · rw [h]
  · exact le_of_lt (hmono j k h hk)

/-- On strictly increasing times, the binary search finds exactly the
segment [i, i+1] whose time interval contains t. -/
lemma bsearch_locates (tb : ℕ → ℝ) (t : ℝ) (count i : ℕ)
    (hmono : ∀ j k : ℕ, j < k → k < count → tb j < tb k)
    (hic : i + 1 ≤ count - 1) (hcount : 1 ≤ count)
    (h0 : tb 0 ≤ t) (hlast : t < tb (count - 1))
    (hti : tb i ≤ t) (hti1 : t < tb (i + 1)) :
    bsearch tb t 0 (count - 1) = (i, i + 1) := by
  obtain ⟨s1, s2, s3, s4, s5⟩ := bsearch_spec tb t 0 (count - 1) (by omega) h0 hlast
  set L := (bsearch tb t 0 (count - 1)).1 with hL
  have hLhi : (bsearch tb t 0 (count - 1)).2 = L + 1 := s3
  have hLcount : L + 1 ≤ count - 1 := by omega
  rw [hLhi] at s5
  have hLi : L = i := by
    rcases Nat.lt_or_ge L i with h | h
    · exfalso
      have : tb (L + 1) ≤ tb i := mono_le_of tb count hmono (L + 1) i (by omega) (by omega)
      linarith
    · rcases Nat.lt_or_ge i L with h2 | h2
      · exfalso
        have : tb (i + 1) ≤ tb L := mono_le_of tb count hmono (i + 1) L (by omega) (by omega)
        linarith
      · omega
  have hp : bsearch tb t 0 (count - 1) =
      ((bsearch tb t 0 (count - 1)).1, (bsearch tb t 0 (count - 1)).2) := rfl
  rw [hp, hLhi, ← hL, hLi]

/-- Evaluating the Hermite segment at its left knot returns the left value
exactly, whatever the tangents are. -/
lemma hermiteSegment_left_knot (tb vb : ℕ → ℝ) (count lo hi : ℕ)
    (hseg : 0 < tb hi - tb lo) :
    hermiteSegment tb vb count lo hi (tb lo) = vb lo := by
  simp only [hermiteSegment]
  rw [if_neg (not_le.mpr hseg)]
  rw [sub_self, zero_div]
  ring

/-- C4: for strictly increasing sample times and a query time strictly
between the adjacent samples i and i+1, the spline evaluation of
interpolateAtTime stays within the closed interval of the two neighboring
values: the monotone cubic never overshoots the local minimum or maximum of
its two neighboring points (here with zero tolerance, which implies the
claim for every epsilon). -/
theorem interpolateAtTime_no_overshoot (tb vb : ℕ → ℝ) (count i : ℕ) (t : ℝ)
    (hmono : ∀ j k : ℕ, j < k → k < count → tb j < tb k)
    (hic : i + 1 < count) (ht0 : tb i < t) (ht1 : t < tb (i + 1)) :
    min (vb i) (vb (i + 1)) ≤ interpolateAtTime tb vb count t ∧
    interpolateAtTime tb vb count t ≤ max (vb i) (vb (i + 1)) := by
  have hcount0 : count ≠ 0 := by omega
  have hic1 : i + 1 ≤ count - 1 := by omega
  have h0le : tb 0 ≤ tb i := mono_le_of tb count hmono 0 i (Nat.zero_le i) (by omega)
  have hnot1 : ¬ t ≤ tb 0 := not_le.mpr (lt_of_le_of_lt h0le ht0)
  have hlastgt : t < tb (count - 1) :=
    lt_of_lt_of_le ht1 (mono_le_of tb count hmono (i + 1) (count - 1) hic1 (by omega))
  have hnot2 : ¬ tb (count - 1) ≤ t := not_le.mpr hlastgt
  unfold interpolateAtTime
  rw [if_neg hcount0, if_neg hnot1, if_neg hnot2,
    bsearch_locates tb t count i hmono hic1 (by omega)
      (le_trans h0le (le_of_lt ht0)) hlastgt (le_of_lt ht0) ht1]
  exact hermiteSegment_bound tb vb count i (i + 1) t
    (sub_pos.mpr (hmono i (i + 1) (by omega) hic)) (le_of_lt ht0) (le_of_lt ht1)

/-- C4 witness: samples at times 0, 1 with values 0, 1; the spline value at
time 1/2 lies within [0, 1]. -/
theorem interpolateAtTime_no_overshoot_witness :
    min (0:ℝ) 1 ≤ interpolateAtTime (fun n : ℕ => (n:ℝ)) (fun n : ℕ => (n:ℝ)) 2 (1/2) ∧
    interpolateAtTime (fun n : ℕ => (n:ℝ)) (fun n : ℕ => (n:ℝ)) 2 (1/2) ≤ max (0:ℝ) 1 := by
  have h := interpolateAtTime_no_overshoot (fun n : ℕ => (n:ℝ)) (fun n : ℕ => (n:ℝ))
    2 0 (1/2) (fun j k hjk hk => by
      show (j:ℝ) < (k:ℝ)
      exact_mod_cast hjk) (by norm_num)
    (by norm_num) (by norm_num)
  simpa using h

/-- C5: for strictly increasing sample times, interpolateAtTime evaluated at
a knot time tb i returns the knot value vb i exactly; any query at or
before the first sample time returns the first value, and any query at or
after the last sample time returns the last value. -/
theorem interpolateAtTime_knots (tb vb : ℕ → ℝ) (count : ℕ)
    (hmono : ∀ j k : ℕ, j < k → k < count → tb j < tb k) :
    (∀ i : ℕ, i < count → interpolateAtTime tb vb count (tb i) = vb i) ∧
    (∀ t : ℝ, 0 < count → t ≤ tb 0 → interpolateAtTime tb vb count t = vb 0) ∧
    (∀ t : ℝ, 0 < count → tb (count - 1) ≤ t →
      interpolateAtTime tb vb count t = vb (count - 1)) := by
  refine ⟨?_, ?_, ?_⟩
  · intro i hi
    by_cases hi0 : i = 0
    · subst hi0
      unfold interpolateAtTime
      rw [if_neg (by omega : ¬ count = 0), if_pos le_rfl]
    · by_cases hilast : i = count - 1
      · subst hilast
        have h0lt : tb 0 < tb (count - 1) :=
          hmono 0 (count - 1) (by omega) (by omega)
        unfold interpolateAtTime
        rw [if_neg (by omega : ¬ count = 0), if_neg (not_le.mpr h0lt), if_pos le_rfl]
      · have hmid : i + 1 ≤ count - 1 := by omega
        have h0lt : tb 0 < tb i := hmono 0 i (by omega) hi
        have hlastgt : tb i < tb (count - 1) :=
          hmono i (count - 1) (by omega) (by omega)
        have hnext : tb i < tb (i + 1) := hmono i (i + 1) (by omega) (by omega)
        unfold interpolateAtTime
        rw [if_neg (by omega : ¬ count = 0), if_neg (not_le.mpr h0lt),
          if_neg (not_le.mpr hlastgt),
          bsearch_locates tb (tb i) count i hmono hmid (by omega)
            (le_of_lt h0lt) hlastgt le_rfl hnext]
        exact hermiteSegment_left_knot tb vb count i (i + 1) (sub_pos.mpr hnext)
  · intro t hc hle
    unfold interpolateAtTime
    rw [if_neg (by omega : ¬ count = 0), if_pos hle]
  · intro t hc hge
    by_cases hle : t ≤ tb 0
    · have h01 : count - 1 = 0 ∨ 0 < count - 1 := by omega
      rcases h01 with h01 | h01
      · unfold interpolateAtTime
        rw [if_neg (by omega : ¬ count = 0), if_pos hle, h01]
      · exfalso
        have : tb 0 < tb (count - 1) := hmono 0 (count - 1) h01 (by omega)
        linarith
    · unfold interpolateAtTime
      rw [if_neg (by omega : ¬ count = 0), if_neg hle, if_pos hge]

/-- C5 witness: samples at times 0, 1, 2 with values 0, 2, 4; evaluation at
each knot returns the knot value, and queries outside the time span return
the first/last values. -/
theorem interpolateAtTime_knots_witness :
    (∀ i : ℕ, i < 3 →
      interpolateAtTime (fun n : ℕ => (n:ℝ)) (fun n : ℕ => (n:ℝ) * 2) 3 (i:ℝ) =
        (i:ℝ) * 2) ∧
    (∀ t : ℝ, 0 < 3 → t ≤ ((0:ℕ):ℝ) →
      interpolateAtTime (fun n : ℕ => (n:ℝ)) (fun n : ℕ => (n:ℝ) * 2) 3 t =
        ((0:ℕ):ℝ) * 2) ∧
    (∀ t : ℝ, 0 < 3 → ((2:ℕ):ℝ) ≤ t →
      interpolateAtTime (fun n : ℕ => (n:ℝ)) (fun n : ℕ => (n:ℝ) * 2) 3 t =
        ((2:ℕ):ℝ) * 2) :=
  interpolateAtTime_knots (fun n : ℕ => (n:ℝ)) (fun n : ℕ => (n:ℝ) * 2) 3
    (fun j k hjk hk => by
      show (j:ℝ) < (k:ℝ)
      exact_mod_cast hjk)

/-- The committed engine state carried between ticks: the shared values
displayValueSV, rangeMinSV, rangeMaxSV and the rangeInitedSV flag
(part_005 lines 591-595, 1363-1366). -/
structure EngineState where
  displayValue : ℝ
  rangeMin : ℝ
  rangeMax : ℝ
  rangeInited : Bool

/-- Fresh per-tick input to the frame callback: target value and lerp
configuration, the visible (time, value) samples (indices
firstVisibleIndex .. min(lastVisibleIndex, count-1) of the packed buffer),
the reference line (none when nonfinite), and the plot layout and domain. -/
structure TickInput where
  targetValue : ℝ
  lerpSpeed : ℝ
  pauseProgress : ℝ
  dtR : ℝ
  visible : List (ℝ × ℝ)
  referenceValue : Option ℝ
  exaggerate : Bool
  innerWidth : ℝ
  innerHeight : ℝ
  padLeft : ℝ
  padTop : ℝ
  start : ℝ
  rightEdge : ℝ
  domainTarget : ℝ

/-- The per-tick interpolation factor (part_005 lines 1324-1331):
adaptive speed from the gap ratio, pause-scaled ratio, then
alpha = 1 - (1 - adaptiveSpeed)^pausedRatio (0 when the ratio is not
positive). -/
def frameAlpha (curDisplay curRangeMin curRangeMax targetValue lerpSpeed dtR
    pauseProgress : ℝ) : ℝ :=
  let currentRange := max 1e-6 (curRangeMax - curRangeMin)
  let g := gapRatioOf targetValue curDisplay currentRange
  let spd := adaptiveSpeedOf lerpSpeed g
  let pausedR := dtR * (1 - pauseProgress)
  if pausedR ≤ 0 then 0 else 1 - (1 - spd) ^ pausedR

/-- The advanced display value (part_005 lines 1334-1340): lerp toward the
target then snap when within VALUE_SNAP_THRESHOLD = 0.001 of the current
range (only while not pausing). -/
def nextDisplayOf (curDisplay currentRange targetValue alphaV pauseProgress : ℝ) : ℝ :=
  let nd := curDisplay + (targetValue - curDisplay) * alphaV
  if pauseProgress < 0.5 ∧ |nd - targetValue| < currentRange * 0.001 then targetValue
  else nd

/-- The vector geometry of one rendered frame: live dot position and the
screen positions of the line path points. -/
structure FrameGeometry where
  liveX : ℝ
  liveY : ℝ
  clampedLiveY : ℝ
  linePoints : List (ℝ × ℝ)

/-- The frame geometry as a function of only the snapshot scalars (the
displayed value and range bounds committed at the end of the previous tick)
and the fresh input: liveX/liveY/clamped dot position (part_005 lines
1397-1412) and the line path point positions of
buildSmoothPathFromVisiblePoints (line.ts lines 96-150, with the reveal
animation complete): interior visible points at their data y, the last
visible point and the virtual tip at the lerped display y. -/
def buildFrameGeometry (curDisplay curRangeMin curRangeMax : ℝ)
    (inp : TickInput) : FrameGeometry :=
  let rangeSpan := max 1e-6 (curRangeMax - curRangeMin)
  let spanX := max 1e-6 (inp.rightEdge - inp.start)
  let liveX := inp.padLeft + ((inp.domainTarget - inp.start) / spanX) * inp.innerWidth
  let liveY := inp.padTop +
    (1 - (curDisplay - curRangeMin) / max rangeSpan 1e-6) * inp.innerHeight
  let clampedLiveY := clamp liveY inp.padTop (inp.padTop + inp.innerHeight)
  let toX := fun tv : ℝ =>
    inp.padLeft + ((tv - inp.start) / max spanX 1e-6) * inp.innerWidth
  let morphYc := fun y : ℝ => clamp y inp.padTop (inp.padTop + inp.innerHeight)
  let realY := fun v : ℝ =>
    inp.padTop + (1 - (v - curRangeMin) / max rangeSpan 1e-6) * inp.innerHeight
  { liveX := liveX
    liveY := liveY
    clampedLiveY := clampedLiveY
    linePoints :=
      (inp.visible.dropLast.map fun p => (toX p.1, morphYc (realY p.2))) ++
      (inp.visible.getLast?.map fun p => (toX p.1, morphYc liveY)).toList ++
      [(liveX, morphYc liveY)] }

/-- One tick of the frame callback in the source order (part_005 lines
1309-1412, 2542-2563, 2759-2762): (1) snapshot the committed display value
and range into locals, (2) advance the next-frame display value and range
bounds into locals, (3) build the frame geometry from the snapshot locals,
(4) commit the advanced values to the state only at the end. -/
def engineTick (s : EngineState) (inp : TickInput) : EngineState × FrameGeometry :=
  let curDisplay := s.displayValue
  let curRangeMin := s.rangeMin
  let curRangeMax := s.rangeMax
  let currentRange := max 1e-6 (curRangeMax - curRangeMin)
  let alphaV := frameAlpha curDisplay curRangeMin curRangeMax inp.targetValue
    inp.lerpSpeed inp.dtR inp.pauseProgress
  let nextDisplay := nextDisplayOf curDisplay currentRange inp.targetValue alphaV
    inp.pauseProgress
  let rangeOut := computeRangeFromVisible (inp.visible.map Prod.snd) curDisplay
    inp.referenceValue inp.exaggerate
  let threshold := rangeThresholdOf inp.innerHeight currentRange
  let nextMin := if s.rangeInited then
    nextRangeMinOf curRangeMin rangeOut.min currentRange alphaV threshold
    else rangeOut.min
  let nextMax := if s.rangeInited then
    nextRangeMaxOf curRangeMax rangeOut.max currentRange alphaV threshold
    else rangeOut.max
  let rangeSpan := max 1e-6 (curRangeMax - curRangeMin)
  let spanX := max 1e-6 (inp.rightEdge - inp.start)
  let liveX := inp.padLeft + ((inp.domainTarget - inp.start) / spanX) * inp.innerWidth
  let liveY := inp.padTop +
    (1 - (curDisplay - curRangeMin) / max rangeSpan 1e-6) * inp.innerHeight
  let clampedLiveY := clamp liveY inp.padTop (inp.padTop + inp.innerHeight)
  let toX := fun tv : ℝ =>
    inp.padLeft + ((tv - inp.start) / max spanX 1e-6) * inp.innerWidth
  let morphYc := fun y : ℝ => clamp y inp.padTop (inp.padTop + inp.innerHeight)
  let realY := fun v : ℝ =>
    inp.padTop + (1 - (v - curRangeMin) / max rangeSpan 1e-6) * inp.innerHeight
  let geom : FrameGeometry :=
    { liveX := liveX
      liveY := liveY
      clampedLiveY := clampedLiveY
      linePoints :=
        (inp.visible.dropLast.map fun p => (toX p.1, morphYc (realY p.2))) ++
        (inp.visible.getLast?.map fun p => (toX p.1, morphYc liveY)).toList ++
        [(liveX, morphYc liveY)] }
  (⟨nextDisplay, nextMin, nextMax, true⟩, geom)

/-- C1: on a tick with at least one visible ingested point, the rendered
frame geometry of the tick is exactly a function of the display value and
range bounds committed at the end of the previous tick (the snapshot) and
the fresh input; the state committed at the end of the tick carries exactly
the advanced values; and the rendered geometry is unchanged under any state
variation that preserves the snapshot scalars (in particular the advanced
range and display values of the same tick never influence the rendered
output of that tick). -/
theorem engineTick_snapshot_render_commit (s : EngineState) (inp : TickInput)
    (hvis : inp.visible ≠ []) :
    (engineTick s inp).2 =
      buildFrameGeometry s.displayValue s.rangeMin s.rangeMax inp ∧
    (engineTick s inp).1.displayValue =
      nextDisplayOf s.displayValue (max 1e-6 (s.rangeMax - s.rangeMin))
        inp.targetValue
        (frameAlpha s.displayValue s.rangeMin s.rangeMax inp.targetValue
          inp.lerpSpeed inp.dtR inp.pauseProgress) inp.pauseProgress ∧
    (engineTick s inp).1.rangeMin =
      (if s.rangeInited then
        nextRangeMinOf s.rangeMin
          (computeRangeFromVisible (inp.visible.map Prod.snd) s.displayValue
            inp.referenceValue inp.exaggerate).min
          (max 1e-6 (s.rangeMax - s.rangeMin))
          (frameAlpha s.displayValue s.rangeMin s.rangeMax inp.targetValue
            inp.lerpSpeed inp.dtR inp.pauseProgress)
          (rangeThresholdOf inp.innerHeight (max 1e-6 (s.rangeMax - s.rangeMin)))
      else (computeRangeFromVisible (inp.visible.map Prod.snd) s.displayValue
        inp.referenceValue inp.exaggerate).min) ∧
    (engineTick s inp).1.rangeMax =
      (if s.rangeInited then
        nextRangeMaxOf s.rangeMax
          (computeRangeFromVisible (inp.visible.map Prod.snd) s.displayValue
            inp.referenceValue inp.exaggerate).max
          (max 1e-6 (s.rangeMax - s.rangeMin))
          (frameAlpha s.displayValue s.rangeMin s.rangeMax inp.targetValue
            inp.lerpSpeed inp.dtR inp.pauseProgress)
          (rangeThresholdOf inp.innerHeight (max 1e-6 (s.rangeMax - s.rangeMin)))
      else (computeRangeFromVisible (inp.visible.map Prod.snd) s.displayValue
        inp.referenceValue inp.exaggerate).max) ∧
    (∀ s2 : EngineState, s2.displayValue = s.displayValue →
      s2.rangeMin = s.rangeMin → s2.rangeMax = s.rangeMax →
      (engineTick s2 inp).2 = (engineTick s inp).2) := by
  refine ⟨rfl, rfl, rfl, rfl, ?_⟩
  intro s2 h1 h2 h3
  simp only [engineTick, h1, h2, h3]

/-- A concrete previous-tick state for the C1 witness. -/
def sampleState : EngineState := ⟨0, 0, 1, false⟩

/-- A concrete tick input with one visible point for the C1 witness. -/
def sampleInput : TickInput :=
  ⟨1, 0.08, 0, 1, [(0, 1)], none, false, 100, 100, 0, 0, 0, 10, 10⟩

/-- C1 witness: on the concrete state and one-point input, the rendered
geometry of the tick equals the geometry built from the snapshot scalars. -/
theorem engineTick_snapshot_render_commit_witness :
    (engineTick sampleState sampleInput).2 =
      buildFrameGeometry sampleState.displayValue sampleState.rangeMin
        sampleState.rangeMax sampleInput :=
  (engineTick_snapshot_render_commit sampleState sampleInput
    (by simp [sampleInput])).1

end

end Liveline
